import Mathlib

/-!
# Verification of the driver-provisioning and filesystem-utility core

Shallow embedding of `scripts/dodolib/netutil.py` and
`scripts/dodolib/fsutil.py`.  Python strings are Lean `String`s (operated on
via their `List Char` data where index arithmetic matters), dictionaries are
association lists, exceptions are `Except`/`Option` results, and the
filesystem is passed explicitly as data.
-/

namespace Dodolib

/-! ## String helpers mirroring the Python primitives used by the source -/

/-- `matchesAt pat s`: `pat` is an initial segment of `s` (on char lists). -/
def matchesAt : List Char → List Char → Bool
  | [], _ => true
  | _ :: _, [] => false
  | p :: ps, c :: cs => p == c && matchesAt ps cs

/-- `occursIn pat s`: `pat` occurs contiguously somewhere in `s`
(the semantics of Python's `in` operator on strings). -/
def occursIn (pat : List Char) : List Char → Bool
  | [] => matchesAt pat []
  | c :: cs => matchesAt pat (c :: cs) || occursIn pat cs

/-- Substring test on `String`s. -/
def containsSub (s pat : String) : Bool :=
  occursIn pat.data s.data

/-- Python `s.endswith(pat)`. -/
def endsWithP (s pat : String) : Bool :=
  matchesAt pat.data.reverse s.data.reverse

theorem matchesAt_refl (xs : List Char) : matchesAt xs xs = true := by
  induction xs with
  | nil => rfl
  | cons x xs ih => simp [matchesAt, ih]

theorem matchesAt_append (pat ys : List Char) :
    matchesAt pat (pat ++ ys) = true := by
  induction pat with
  | nil => rfl
  | cons p ps ih => simp [matchesAt, ih]

theorem occursIn_of_matchesAt {pat s : List Char} (h : matchesAt pat s = true) :
    occursIn pat s = true := by
  cases s with
  | nil =>
    cases pat with
    | nil => rfl
    | cons p ps => simp [matchesAt] at h
  | cons c cs => simp [occursIn, h]

theorem occursIn_append_middle (pat xs ys : List Char) :
    occursIn pat (xs ++ pat ++ ys) = true := by
  induction xs with
  | nil =>
    simpa using occursIn_of_matchesAt (matchesAt_append pat ys)
  | cons x xs ih =>
    have hstep : occursIn pat ((x :: xs) ++ pat ++ ys) =
        (matchesAt pat ((x :: xs) ++ pat ++ ys) || occursIn pat (xs ++ pat ++ ys)) := rfl
    rw [hstep, ih, Bool.or_true]

/-- `containsSub (a ++ pat ++ b) pat` always holds. -/
theorem containsSub_append (a pat b : String) :
    containsSub (a ++ pat ++ b) pat = true := by
  unfold containsSub
  have : (a ++ pat ++ b).data = a.data ++ pat.data ++ b.data := by
    simp
  rw [this]
  exact occursIn_append_middle pat.data a.data b.data

/-! ## Suffix tables and `basename` (netutil.py)

`GeckoDownloader.WEBDRIVER_GECKO_FILE_SUFFIX_MAP` and
`ChromeDownloader.WEBDRIVER_CHROME_FILE_SUFFIX_MAP` map
`platform.uname().system + '-' + platform.uname().machine` to artifact
suffixes.  A Python `dict[...]` lookup miss raises `KeyError` (the spec's
`UnsupportedPlatform`); we model the lookup as an `Option`. -/

def WEBDRIVER_GECKO_FILE_SUFFIX_MAP : List (String × String) :=
  [("Linux-x86_64", "linux64.tar.gz"),
   ("Linux-x86", "linux32.tar.gz"),
   ("Windows-AMD64", "win64.zip"),
   ("Windows-x86", "win32.zip")]

def WEBDRIVER_CHROME_FILE_SUFFIX_MAP : List (String × String) :=
  [("Linux-x86_64", "linux64.zip"),
   ("Linux-x86", "linux64.zip"),
   ("Windows-AMD64", "win32.zip"),
   ("Windows-x86", "win32.zip")]

/-- Association-list lookup modelling Python's `dict[key]` (with `none` for
the `KeyError` case). -/
def dictLookup (key : String) : List (String × String) → Option String
  | [] => none
  | (k, v) :: rest => if k == key then some v else dictLookup key rest

/-- `GeckoDownloader.basename`: looks up `system + '-' + machine` in the
gecko suffix map and formats `f'geckodriver-v{self.version}-{suffix}'`. -/
def geckoBasename (system machine version : String) : Option String :=
  match dictLookup (system ++ "-" ++ machine) WEBDRIVER_GECKO_FILE_SUFFIX_MAP with
  | some suffix => some ("geckodriver-v" ++ version ++ "-" ++ suffix)
  | none => none

/-- `ChromeDownloader.basename`: looks up `system + '-' + machine` in the
chrome suffix map and formats `f'chromedriver_{suffix}'` (note: the version
does not appear in the format string). -/
def chromeBasename (system machine : String) : Option String :=
  match dictLookup (system ++ "-" ++ machine) WEBDRIVER_CHROME_FILE_SUFFIX_MAP with
  | some suffix => some ("chromedriver_" ++ suffix)
  | none => none

/-- C1 (counterexample): the claim asserts that for every pair in a family's
suffix table, that family's `basename()` contains the resolved version and the
suffix, "for both the gecko and chrome families".  For the chrome family at
the mapped pair `(Linux, x86_64)` the result is the fixed string
`chromedriver_linux64.zip`, which does not contain the version
(here `96.0.4664.45`): the chrome format string has no version field. -/
theorem chrome_basename_lacks_version :
    chromeBasename "Linux" "x86_64" = some "chromedriver_linux64.zip" ∧
    containsSub "chromedriver_linux64.zip" "96.0.4664.45" = false := by
  exact ⟨rfl, by decide⟩

/-- C1 (amended): for every `(system, machine)` pair with an entry in the
gecko suffix table, `GeckoDownloader.basename` yields
`geckodriver-v<version>-<suffix>`, containing both the resolved version and
the table's suffix; for every mapped pair of the chrome table,
`ChromeDownloader.basename` yields `chromedriver_<suffix>`, containing the
suffix (but not the version); for any pair absent from a family's table,
that family's `basename` raises `UnsupportedPlatform` (the `dict` lookup's
`KeyError`, modelled as `none`). -/
theorem basename_platform_table (system machine version suffix : String) :
    (dictLookup (system ++ "-" ++ machine) WEBDRIVER_GECKO_FILE_SUFFIX_MAP = some suffix →
      geckoBasename system machine version =
          some ("geckodriver-v" ++ version ++ "-" ++ suffix) ∧
      containsSub ("geckodriver-v" ++ version ++ "-" ++ suffix) version = true ∧
      containsSub ("geckodriver-v" ++ version ++ "-" ++ suffix) suffix = true) ∧
    (dictLookup (system ++ "-" ++ machine) WEBDRIVER_GECKO_FILE_SUFFIX_MAP = none →
      geckoBasename system machine version = none) ∧
    (dictLookup (system ++ "-" ++ machine) WEBDRIVER_CHROME_FILE_SUFFIX_MAP = some suffix →
      chromeBasename system machine = some ("chromedriver_" ++ suffix) ∧
      containsSub ("chromedriver_" ++ suffix) suffix = true) ∧
    (dictLookup (system ++ "-" ++ machine) WEBDRIVER_CHROME_FILE_SUFFIX_MAP = none →
      chromeBasename system machine = none) := by
  refine ⟨fun h => ⟨?_, ?_, ?_⟩, fun h => ?_, fun h => ⟨?_, ?_⟩, fun h => ?_⟩
  · simp [geckoBasename, h]
  · have := containsSub_append "geckodriver-v" version ("-" ++ suffix)
    simpa [String.append_assoc] using this
  · have := containsSub_append ("geckodriver-v" ++ version ++ "-") suffix ""
    simpa [String.append_assoc] using this
  · simp [geckoBasename, h]
  · simp [chromeBasename, h]
  · have := containsSub_append "chromedriver_" suffix ""
    simpa [String.append_assoc] using this
  · simp [chromeBasename, h]

/-- C1 witness: the amended theorem instantiated at concrete platform pairs,
one mapped and one unmapped, for each family. -/
theorem basename_platform_table_witness :
    (geckoBasename "Linux" "x86_64" "0.29.0" =
        some ("geckodriver-v" ++ "0.29.0" ++ "-" ++ "linux64.tar.gz") ∧
      containsSub ("geckodriver-v" ++ "0.29.0" ++ "-" ++ "linux64.tar.gz") "0.29.0" = true ∧
      containsSub ("geckodriver-v" ++ "0.29.0" ++ "-" ++ "linux64.tar.gz") "linux64.tar.gz" = true) ∧
    geckoBasename "Darwin" "arm64" "0.29.0" = none ∧
    (chromeBasename "Windows" "AMD64" = some ("chromedriver_" ++ "win32.zip") ∧
      containsSub ("chromedriver_" ++ "win32.zip") "win32.zip" = true) ∧
    chromeBasename "Darwin" "arm64" = none := by
  refine ⟨?_, ?_, ?_, ?_⟩
  · exact (basename_platform_table "Linux" "x86_64" "0.29.0" "linux64.tar.gz").1 (by decide)
  · exact (basename_platform_table "Darwin" "arm64" "0.29.0" "").2.1 (by decide)
  · exact (basename_platform_table "Windows" "AMD64" "" "win32.zip").2.2.1 (by decide)
  · exact (basename_platform_table "Darwin" "arm64" "" "").2.2.2 (by decide)

/-! ## Install pipeline after fetch (`GeckoDownloader.go` / `ChromeDownloader.go`)

Both `go` methods run `download_file(...)`, then
`assert isfile(fullpath), ...` (the spec's `DownloadVerificationFailed`),
then `unarchive(fullpath)`, `os.remove(fullpath)` and a final family-specific
step.  The downloaded file is modelled as `Option Nat`: `none` when missing,
`some n` for an existing regular file of `n` bytes; `os.path.isfile` is true
precisely when the file exists, regardless of size. -/

inductive InstallStep where
  | verifyFail
  | unpack
  | removeArchive
  | writeMarker
  | logVersion
  deriving DecidableEq

/-- `os.path.isfile` on the post-fetch artifact. -/
def isfile (file : Option Nat) : Bool := file.isSome

/-- Steps `GeckoDownloader.go` performs after `download_file`, as a function
of the downloaded file's state. -/
def geckoPostFetch (file : Option Nat) : List InstallStep :=
  if isfile file then [.unpack, .removeArchive, .writeMarker] else [.verifyFail]

/-- Steps `ChromeDownloader.go` performs after `download_file`. -/
def chromePostFetch (file : Option Nat) : List InstallStep :=
  if isfile file then [.unpack, .removeArchive, .logVersion] else [.verifyFail]

/-- C2 (counterexample): the claim asserts that a zero-byte downloaded file
triggers `DownloadVerificationFailed` before any unpacking.  On an existing
zero-byte file (`some 0`), `isfile` is true, the assertion passes, and both
variants proceed straight to unpacking: no verification failure occurs. -/
theorem zero_byte_file_passes_check :
    geckoPostFetch (some 0) =
        [InstallStep.unpack, InstallStep.removeArchive, InstallStep.writeMarker] ∧
    chromePostFetch (some 0) =
        [InstallStep.unpack, InstallStep.removeArchive, InstallStep.logVersion] ∧
    InstallStep.verifyFail ∉ geckoPostFetch (some 0) ∧
    InstallStep.verifyFail ∉ chromePostFetch (some 0) := by
  refine ⟨rfl, rfl, by decide, by decide⟩

/-- C2 (amended): in both variants, if the file at `directory/basename` is
missing after fetch, the install raises `DownloadVerificationFailed` before
any unpacking; the check is `isfile` — existence of the file itself, not a
checksum and not its size — so any existing file (including a zero-byte one)
passes and unpacking proceeds. -/
theorem missing_file_fails_before_unpack (file : Option Nat) :
    (file = none →
      geckoPostFetch file = [InstallStep.verifyFail] ∧
      chromePostFetch file = [InstallStep.verifyFail]) ∧
    (file.isSome = true →
      geckoPostFetch file =
          [InstallStep.unpack, InstallStep.removeArchive, InstallStep.writeMarker] ∧
      chromePostFetch file =
          [InstallStep.unpack, InstallStep.removeArchive, InstallStep.logVersion]) := by
  constructor
  · rintro rfl
    exact ⟨rfl, rfl⟩
  · intro h
    constructor <;> simp [geckoPostFetch, chromePostFetch, isfile, h]

/-- C2 witness: the amended theorem at a missing file and at an existing
one-byte file. -/
theorem missing_file_fails_before_unpack_witness :
    (geckoPostFetch none = [InstallStep.verifyFail] ∧
      chromePostFetch none = [InstallStep.verifyFail]) ∧
    (geckoPostFetch (some 1) =
        [InstallStep.unpack, InstallStep.removeArchive, InstallStep.writeMarker] ∧
      chromePostFetch (some 1) =
        [InstallStep.unpack, InstallStep.removeArchive, InstallStep.logVersion]) := by
  exact ⟨(missing_file_fails_before_unpack none).1 rfl,
         (missing_file_fails_before_unpack (some 1)).2 rfl⟩

/-! ## Gecko "latest" version resolution (`GeckoDownloader.get_latest_version`)

The source issues `requests.get(latest_url, allow_redirects=False)` against
`posix_join(main_url, 'latest')`, asserts `status_code == 302`, and computes
`resp.headers['location'].strip().rsplit('/')[-1].lstrip('v')`.  The method
is wrapped in `functools.lru_cache(maxsize=1)`, so a successful result is
cached for the process lifetime; the cache is threaded explicitly here, with
a counter of network requests made by each call. -/

structure HttpResp where
  status : Nat
  location : String

structure HttpReq where
  url : String
  allowRedirects : Bool

/-- `posixpath.join(a, b)` for a single extra component. -/
def posixJoin (a b : String) : String :=
  if b.data.head? == some '/' then b
  else if a == "" || a.data.getLast? == some '/' then a ++ b
  else a ++ "/" ++ b

/-- `urllib.parse.urlunparse` specialised to empty params/query/fragment and
a path starting with `/`, the only shape the source builds
(`WEBDRIVER_GECKO_URL_PARTS`; its values contain no `{}` placeholders, so
`substitute_keywords` is the identity on them). -/
def urlunparseSimple (scheme netloc path : String) : String :=
  scheme ++ "://" ++ netloc ++ path

/-- `GeckoDownloader.main_url`. -/
def geckoMainUrl : String :=
  urlunparseSimple "https" "github.com" "/mozilla/geckodriver/releases"

/-- The HTTP request `get_latest_version` issues:
`requests.get(posix_join(main_url, 'latest'), allow_redirects=False)`. -/
def geckoLatestRequest : HttpReq :=
  { url := posixJoin geckoMainUrl "latest", allowRedirects := false }

/-- Python's `str.strip()` whitespace class. -/
def isPySpace (c : Char) : Bool :=
  c == ' ' || c == '\t' || c == '\n' || c == '\r' || c == '\x0b' || c == '\x0c'

/-- Python `str.strip()` on a char list. -/
def stripChars (cs : List Char) : List Char :=
  ((cs.dropWhile isPySpace).reverse.dropWhile isPySpace).reverse

/-- `s.rsplit('/')[-1]`: the substring after the last `/`, or the whole
string when there is no `/`. -/
def lastSegment (cs : List Char) : List Char :=
  (cs.reverse.takeWhile (fun c => c != '/')).reverse

/-- `resp.headers['location'].strip().rsplit('/')[-1].lstrip('v')`. -/
def extractVersionFromLocation (loc : String) : String :=
  String.mk ((lastSegment (stripChars loc.data)).dropWhile (fun c => c == 'v'))

theorem takeWhile_all_stop {α} (p : α → Bool) (xs : List α) (y : α) (r : List α)
    (hxs : ∀ x ∈ xs, p x = true) (hy : p y = false) :
    (xs ++ y :: r).takeWhile p = xs := by
  induction xs with
  | nil => simp [List.takeWhile_cons, hy]
  | cons a as ih =>
    have ha : p a = true := hxs a (by simp)
    simp only [List.cons_append, List.takeWhile_cons, ha, if_true]
    rw [ih (fun x hx => hxs x (by simp [hx]))]

theorem dropWhile_append_through {α} (p : α → Bool) (pre : List α) (y : α)
    (r : List α) (hy : p y = false) :
    ∃ pre2, (pre ++ y :: r).dropWhile p = pre2 ++ y :: r := by
  induction pre with
  | nil => exact ⟨[], by simp [List.dropWhile_cons, hy]⟩
  | cons a as ih =>
    by_cases h : p a = true
    · simpa [List.dropWhile_cons, h] using ih
    · exact ⟨a :: as, by simp [List.dropWhile_cons, h]⟩

theorem dropWhile_eq_self_of_all {α} (p : α → Bool) (xs : List α) (y : α)
    (r : List α) (hxs : ∀ x ∈ xs, p x = false) (hy : p y = false) :
    (xs ++ y :: r).dropWhile p = xs ++ y :: r := by
  cases xs with
  | nil => simp [List.dropWhile_cons, hy]
  | cons a as => simp [List.dropWhile_cons, hxs a (by simp)]

/-- On a location of the form `<prefix>/<segment>` whose final segment holds
no separator and no whitespace, the extraction returns exactly that final
segment with its leading `v`s stripped. -/
theorem extract_final_segment (pre seg : List Char)
    (hsep : ('/' : Char) ∉ seg) (hws : ∀ c ∈ seg, isPySpace c = false) :
    extractVersionFromLocation (String.mk (pre ++ '/' :: seg)) =
      String.mk (seg.dropWhile (fun c => c == 'v')) := by
  have hslash : isPySpace '/' = false := by decide
  obtain ⟨pre2, hpre2⟩ := dropWhile_append_through isPySpace pre '/' seg hslash
  have hwsrev : ∀ c ∈ seg.reverse, isPySpace c = false :=
    fun c hc => hws c (List.mem_reverse.mp hc)
  have hsegrev : ∀ x ∈ seg.reverse, (x != '/') = true := by
    intro x hx
    simp only [bne_iff_ne, ne_eq]
    intro h
    exact hsep (h ▸ List.mem_reverse.mp hx)
  have hdrop2 : List.dropWhile isPySpace (seg.reverse ++ '/' :: pre2.reverse)
      = seg.reverse ++ '/' :: pre2.reverse :=
    dropWhile_eq_self_of_all isPySpace seg.reverse '/' pre2.reverse hwsrev hslash
  have htake : List.takeWhile (fun c => c != '/') (seg.reverse ++ '/' :: pre2.reverse)
      = seg.reverse :=
    takeWhile_all_stop _ seg.reverse '/' pre2.reverse hsegrev (by decide)
  show String.mk ((lastSegment (stripChars (pre ++ '/' :: seg))).dropWhile
    (fun c => c == 'v')) = _
  have hstrip : stripChars (pre ++ '/' :: seg)
      = (seg.reverse ++ '/' :: pre2.reverse).reverse := by
    unfold stripChars
    rw [hpre2]
    rw [show (pre2 ++ '/' :: seg).reverse = seg.reverse ++ '/' :: pre2.reverse by simp]
    rw [hdrop2]
  rw [hstrip]
  unfold lastSegment
  rw [List.reverse_reverse, htake, List.reverse_reverse]

/-- The body of `get_latest_version` applied to the response of
`geckoLatestRequest`: asserts status 302, then extracts the version from the
`Location` header. -/
def getLatestVersionNet (resp : HttpResp) : Except String String :=
  if resp.status == 302 then Except.ok (extractVersionFromLocation resp.location)
  else Except.error "Expected status code 302"

/-- `get_latest_version` under its `lru_cache(maxsize=1)` wrapper: given the
current cache and the response the network would return, produce the result,
the new cache, and the number of network requests performed. A cache hit does
not touch the network; an error (failed assertion) is not cached. -/
def getLatestVersionCached (cache : Option String) (resp : HttpResp) :
    Except String (String × Option String × Nat) :=
  match cache with
  | some v => Except.ok (v, some v, 0)
  | none =>
    match getLatestVersionNet resp with
    | Except.ok v => Except.ok (v, some v, 1)
    | Except.error e => Except.error e

/-- C3: when the configured version is "latest", the gecko variant issues an
HTTP GET to the fixed latest-release endpoint with redirects disabled;
a 302 response is accepted and yields the final path segment of the
`Location` header with leading `v` characters stripped; any other status is
rejected; the resolved value is cached, so a repeated resolution returns the
same value with zero further network requests regardless of what the network
would now answer. -/
theorem gecko_latest_version_resolution (resp retry : HttpResp)
    (h : resp.status = 302) :
    geckoLatestRequest.url = "https://github.com/mozilla/geckodriver/releases/latest" ∧
    geckoLatestRequest.allowRedirects = false ∧
    getLatestVersionCached none resp =
      Except.ok (extractVersionFromLocation resp.location,
        some (extractVersionFromLocation resp.location), 1) ∧
    getLatestVersionCached (some (extractVersionFromLocation resp.location)) retry =
      Except.ok (extractVersionFromLocation resp.location,
        some (extractVersionFromLocation resp.location), 0) ∧
    (∀ st loc, st ≠ 302 →
      getLatestVersionNet ⟨st, loc⟩ = Except.error "Expected status code 302") ∧
    (∀ pre seg : List Char, ('/' : Char) ∉ seg → (∀ c ∈ seg, isPySpace c = false) →
      extractVersionFromLocation (String.mk (pre ++ '/' :: seg)) =
        String.mk (seg.dropWhile (fun c => c == 'v'))) := by
  refine ⟨by decide, rfl, ?_, rfl, ?_, fun pre seg h1 h2 => extract_final_segment pre seg h1 h2⟩
  · simp [getLatestVersionCached, getLatestVersionNet, h]
  · intro st loc hne
    simp [getLatestVersionNet, hne]

/-- C3 witness: resolution at a concrete 302 response whose `Location` is a
geckodriver release-tag URL, followed by a cached repeat against a network
that would now answer 404. -/
theorem gecko_latest_version_resolution_witness :
    getLatestVersionCached none
        ⟨302, "https://github.com/mozilla/geckodriver/releases/tag/v0.29.0"⟩ =
      Except.ok
        (extractVersionFromLocation
          "https://github.com/mozilla/geckodriver/releases/tag/v0.29.0",
         some (extractVersionFromLocation
          "https://github.com/mozilla/geckodriver/releases/tag/v0.29.0"), 1) ∧
    getLatestVersionCached
        (some (extractVersionFromLocation
          "https://github.com/mozilla/geckodriver/releases/tag/v0.29.0"))
        ⟨404, "changed"⟩ =
      Except.ok
        (extractVersionFromLocation
          "https://github.com/mozilla/geckodriver/releases/tag/v0.29.0",
         some (extractVersionFromLocation
          "https://github.com/mozilla/geckodriver/releases/tag/v0.29.0"), 0) ∧
    extractVersionFromLocation
        "https://github.com/mozilla/geckodriver/releases/tag/v0.29.0" = "0.29.0" := by
  have h := gecko_latest_version_resolution
    ⟨302, "https://github.com/mozilla/geckodriver/releases/tag/v0.29.0"⟩
    ⟨404, "changed"⟩ rfl
  exact ⟨h.2.2.1, h.2.2.2.1, by decide⟩

/-! ## Chrome version resolution (`ChromeDownloader.get_chrome_version`)

The source branches on `platform.system()`: on `'linux'` it runs
`chromium-browser --version` and cleans the output, on `'Windows'` it runs a
registry query and takes the last whitespace-separated token; either branch
then extracts the first `\d+\.\d+\.\d+` match; any other system value
returns `None`.  `platform.system()` and the raw command output are
parameters here; `.ok none` models Python returning `None`, `.error` models
an uncaught exception inside the function. -/

/-- Python `str.replace(pat, rep)` (all occurrences, left to right), with a
fuel argument bounded by the input length. -/
def replaceAllAux (pat rep : List Char) : Nat → List Char → List Char
  | 0, s => s
  | _ + 1, [] => []
  | fuel + 1, c :: cs =>
    if !pat.isEmpty && matchesAt pat (c :: cs) then
      rep ++ replaceAllAux pat rep fuel ((c :: cs).drop pat.length)
    else
      c :: replaceAllAux pat rep fuel cs

/-- Python `s.replace(pat, rep)`. -/
def pyReplace (s pat rep : String) : String :=
  String.mk (replaceAllAux pat.data rep.data s.data.length s.data)

/-- Whitespace split discarding empty tokens: Python `str.split()` with no
arguments. -/
def splitWsAux : List Char → List Char → List (List Char)
  | [], acc => if acc.isEmpty then [] else [acc.reverse]
  | c :: cs, acc =>
    if isPySpace c then
      if acc.isEmpty then splitWsAux cs [] else acc.reverse :: splitWsAux cs []
    else splitWsAux cs (c :: acc)

def splitWs (cs : List Char) : List (List Char) := splitWsAux cs []

/-- One attempt of `re.compile(r'\d+\.\d+\.\d+')` anchored at the head of
`cs`: three maximal nonempty digit runs joined by literal dots (greedy `\d+`
never backtracks productively before a literal `.`). -/
def matchVersionAt (cs : List Char) : Option (List Char) :=
  let d1 := cs.takeWhile Char.isDigit
  let r1 := cs.dropWhile Char.isDigit
  if d1.isEmpty then none else
  match r1 with
  | '.' :: r2 =>
    let d2 := r2.takeWhile Char.isDigit
    let r3 := r2.dropWhile Char.isDigit
    if d2.isEmpty then none else
    match r3 with
    | '.' :: r4 =>
      let d3 := r4.takeWhile Char.isDigit
      if d3.isEmpty then none else some (d1 ++ '.' :: d2 ++ '.' :: d3)
    | _ => none
  | _ => none

/-- `re.search`: leftmost match of the version pattern. -/
def searchVersion : List Char → Option (List Char)
  | [] => none
  | c :: cs =>
    match matchVersionAt (c :: cs) with
    | some m => some m
    | none => searchVersion cs

/-- `ChromeDownloader.get_chrome_version`, parametrised by the value of
`platform.system()` and the raw standard output of the platform's
version-query command. -/
def getChromeVersion (system cmdOutput : String) : Except String (Option String) :=
  if system == "linux" then
    let v1 := String.mk (stripChars (pyReplace cmdOutput "Chromium" "").data)
    let v2 := String.mk (stripChars (pyReplace v1 "Google Chrome" "").data)
    match searchVersion v2.data with
    | some m => Except.ok (some (String.mk m))
    | none => Except.error "AttributeError"
  else if system == "Windows" then
    match (splitWs (stripChars cmdOutput.data)).getLast? with
    | none => Except.error "IndexError"
    | some last =>
      match searchVersion last with
      | some m => Except.ok (some (String.mk m))
      | none => Except.error "AttributeError"
  else
    Except.ok none

/-- `ChromeDownloader.get_latest_release_for_version`'s request URL:
`LATEST_RELEASE_URL + '_{}'.format(version)`; Python's `format` renders
`None` as the string `"None"`. -/
def latestReleaseUrl (version : Option String) : String :=
  "https://chromedriver.storage.googleapis.com/LATEST_RELEASE" ++ "_" ++
    (match version with | some v => v | none => "None")

/-- C4 (code bug): on the POSIX-like family `platform.system()` returns
`"Linux"` (capitalised), but the source compares it against the lowercase
literal `'linux'`, so the browser-query branch is unreachable there:
`get_chrome_version` returns `None` for every command output, and the
latest-release endpoint is queried as `.../LATEST_RELEASE_None`.  Had the
comparison matched (system string `"linux"`), the branch would indeed
extract the `MAJOR.MINOR.PATCH` pattern, as the middle conjunct shows. -/
theorem chrome_version_resolution_linux_bug (out : String) :
    getChromeVersion "Linux" out = Except.ok none ∧
    getChromeVersion "linux" "Chromium 96.0.4664.45 snap" =
      Except.ok (some "96.0.4664") ∧
    latestReleaseUrl none =
      "https://chromedriver.storage.googleapis.com/LATEST_RELEASE_None" := by
  exact ⟨rfl, rfl, by decide⟩

/-! ## Archive extraction (`fsutil.unarchive`)

Path arithmetic follows `posixpath` (`os.path` on the POSIX family, the
platform the repository's tests run on). -/

/-- Index of the last occurrence of `c` in `cs` (Python `str.rfind`,
as an `Option` instead of `-1`). -/
def lastIndexOfAux (c : Char) : List Char → Option Nat
  | [] => none
  | x :: xs =>
    match lastIndexOfAux c xs with
    | some i => some (i + 1)
    | none => if x == c then some 0 else none

/-- `posixpath.splitext`: split off the extension beginning at the last dot
of the final component, unless that component consists only of leading
dots up to it. -/
def splitext (p : String) : String × String :=
  let cs := p.data
  let sepIdx : Int := match lastIndexOfAux '/' cs with | some i => (i : Int) | none => -1
  let dotIdx : Int := match lastIndexOfAux '.' cs with | some i => (i : Int) | none => -1
  if sepIdx < dotIdx then
    let nameStart := (sepIdx + 1).toNat
    let dotNat := dotIdx.toNat
    if ((cs.drop nameStart).take (dotNat - nameStart)).any (fun ch => ch != '.') then
      (String.mk (cs.take dotNat), String.mk (cs.drop dotNat))
    else (p, "")
  else (p, "")

/-- `posixpath.dirname`. -/
def dirnameP (p : String) : String :=
  match lastIndexOfAux '/' p.data with
  | none => ""
  | some i =>
    let head := p.data.take (i + 1)
    if head.all (fun ch => ch == '/') then String.mk head
    else String.mk ((head.reverse.dropWhile (fun ch => ch == '/')).reverse)

/-- `posixpath.basename`. -/
def basenameP (p : String) : String :=
  match lastIndexOfAux '/' p.data with
  | none => p
  | some i => String.mk (p.data.drop (i + 1))

inductive ArchiveAction where
  | extractTarGz (target : String)
  | extractZip (target : String)
  deriving DecidableEq

/-- `fsutil.unarchive`: dispatches purely on the suffix. `Except.ok` carries
the extraction performed (format and target directory); `Except.error`
carries the `RuntimeError` message (the spec's `UnsupportedArchiveFormat`),
in which case no filesystem write is performed. -/
def unarchive (p : String) : Except String ArchiveAction :=
  let ext := (splitext p).2
  if endsWithP p ".tar.gz" || ext == ".tgz" then
    Except.ok (ArchiveAction.extractTarGz (dirnameP p))
  else if ext == ".zip" then
    Except.ok (ArchiveAction.extractZip (dirnameP p))
  else
    Except.error ("Cannot unarchive file " ++ basenameP p ++ " of type " ++ ext)

theorem splitext_snd_cases (p : String) :
    (splitext p).2 = "" ∨ ∃ n, (splitext p).2 = String.mk (p.data.drop n) := by
  unfold splitext
  dsimp only
  split
  · split
    · exact Or.inr ⟨_, rfl⟩
    · exact Or.inl rfl
  · exact Or.inl rfl

/-- A path whose `splitext` extension is `.zip` cannot end in `.tar.gz`. -/
theorem ext_zip_not_targz (p : String) (h : (splitext p).2 = ".zip") :
    endsWithP p ".tar.gz" = false := by
  rcases splitext_snd_cases p with h0 | ⟨n, hn⟩
  · rw [h0] at h; exact absurd h (by decide)
  · rw [hn] at h
    have hdata : p.data.drop n = ['.', 'z', 'i', 'p'] := congrArg String.data h
    have hsplit : p.data = p.data.take n ++ ['.', 'z', 'i', 'p'] := by
      conv_lhs => rw [← List.take_append_drop n p.data]
      rw [hdata]
    unfold endsWithP
    rw [hsplit]
    have hpat : (".tar.gz" : String).data.reverse = ['z', 'g', '.', 'r', 'a', 't', '.'] := by
      decide
    rw [hpat]
    have hrev : (p.data.take n ++ ['.', 'z', 'i', 'p']).reverse =
        'p' :: 'i' :: 'z' :: '.' :: (p.data.take n).reverse := by
      simp
    rw [hrev]
    simp [matchesAt]

/-- C5: `unarchive` dispatches purely on the file suffix: a path ending in
`.tar.gz` or with extension `.tgz` is extracted as a gzip-compressed tar, a
path with extension `.zip` as a zip, each into the parent directory of the
archive; any other suffix yields `UnsupportedArchiveFormat` (a
`RuntimeError`) whose message carries the original basename and the suffix,
with no filesystem write performed (the error carries no action). -/
theorem unarchive_dispatch (p : String) :
    (endsWithP p ".tar.gz" = true ∨ (splitext p).2 = ".tgz" →
      unarchive p = Except.ok (ArchiveAction.extractTarGz (dirnameP p))) ∧
    ((splitext p).2 = ".zip" →
      unarchive p = Except.ok (ArchiveAction.extractZip (dirnameP p))) ∧
    (endsWithP p ".tar.gz" = false → (splitext p).2 ≠ ".tgz" → (splitext p).2 ≠ ".zip" →
      unarchive p = Except.error
          ("Cannot unarchive file " ++ basenameP p ++ " of type " ++ (splitext p).2) ∧
      containsSub ("Cannot unarchive file " ++ basenameP p ++ " of type " ++ (splitext p).2)
        (basenameP p) = true ∧
      containsSub ("Cannot unarchive file " ++ basenameP p ++ " of type " ++ (splitext p).2)
        ((splitext p).2) = true) := by
  refine ⟨fun h => ?_, fun h => ?_, fun h1 h2 h3 => ⟨?_, ?_, ?_⟩⟩
  · unfold unarchive
    rcases h with h | h <;> simp [h]
  · have hz := ext_zip_not_targz p h
    unfold unarchive
    simp [h, hz]
  · unfold unarchive
    simp [h1, h2, h3]
  · have := containsSub_append "Cannot unarchive file " (basenameP p)
      (" of type " ++ (splitext p).2)
    simpa [String.append_assoc] using this
  · have := containsSub_append
      ("Cannot unarchive file " ++ basenameP p ++ " of type ") ((splitext p).2) ""
    simpa [String.append_assoc] using this

/-- C5 witness: the dispatch theorem at a `.tar.gz`, a `.zip` and an `.xyz`
path. -/
theorem unarchive_dispatch_witness :
    unarchive "/tmp/d/x.tar.gz" =
      Except.ok (ArchiveAction.extractTarGz (dirnameP "/tmp/d/x.tar.gz")) ∧
    unarchive "/tmp/d/y.zip" =
      Except.ok (ArchiveAction.extractZip (dirnameP "/tmp/d/y.zip")) ∧
    dirnameP "/tmp/d/y.zip" = "/tmp/d" ∧
    unarchive "/tmp/d/z.xyz" = Except.error
      ("Cannot unarchive file " ++ basenameP "/tmp/d/z.xyz" ++ " of type " ++
        (splitext "/tmp/d/z.xyz").2) ∧
    basenameP "/tmp/d/z.xyz" = "z.xyz" ∧ (splitext "/tmp/d/z.xyz").2 = ".xyz" := by
  refine ⟨(unarchive_dispatch "/tmp/d/x.tar.gz").1 (Or.inl (by decide)),
    (unarchive_dispatch "/tmp/d/y.zip").2.1 (by decide), by decide,
    ((unarchive_dispatch "/tmp/d/z.xyz").2.2 (by decide) (by decide) (by decide)).1,
    by decide, by decide⟩

/-! ## Repo root location (`fsutil.find_repo_root`)

The walk operates on the absolute normalized path string
(`abspath(normpath(start_dir))`); the filesystem is abstracted by
`hasGit d` = "`.git` is an immediate subdirectory of `d`" (the source's
`'.git' in sub_dirs` test over `os.listdir`).  The loop
`while curr_dir: ...; curr_dir = curr_dir.rsplit(os.sep, 1)[0]` strictly
shortens an absolute path each round, so fuel `start.length + 1` is exact;
on a path with no separator the source would loop forever, which the fuel
exhaustion models (unreachable for absolute paths). -/

/-- `curr_dir.rsplit(os.sep, 1)[0]`: everything before the last `/`, or the
whole string when there is no `/`. -/
def parentSplit (s : String) : String :=
  match lastIndexOfAux '/' s.data with
  | none => s
  | some i => String.mk (s.data.take i)

def findRepoRootLoop (hasGit : String → Bool) : Nat → String → Except String String
  | 0, _ => Except.error "fuel exhausted"
  | fuel + 1, curr =>
    if curr = "" then Except.error "Cannot find git repo"
    else if hasGit curr then Except.ok curr
    else findRepoRootLoop hasGit fuel (parentSplit curr)

/-- `fsutil.find_repo_root` (one uncached invocation of the walk). -/
def findRepoRoot (hasGit : String → Bool) (start : String) : Except String String :=
  findRepoRootLoop hasGit (start.length + 1) start

/-- The directories the loop examines, in order. -/
def walkChainLoop : Nat → String → List String
  | 0, _ => []
  | fuel + 1, curr =>
    if curr = "" then [] else curr :: walkChainLoop fuel (parentSplit curr)

def walkChain (start : String) : List String :=
  walkChainLoop (start.length + 1) start

theorem lastIndexOfAux_none {c : Char} {cs : List Char}
    (h : lastIndexOfAux c cs = none) : c ∉ cs := by
  induction cs with
  | nil => simp
  | cons x xs ih =>
    unfold lastIndexOfAux at h
    cases hx : lastIndexOfAux c xs with
    | some j => rw [hx] at h; exact absurd h (by simp)
    | none =>
      rw [hx] at h
      by_cases hxc : (x == c) = true
      · rw [if_pos hxc] at h; exact absurd h (by simp)
      · rw [if_neg hxc] at h
        simp only [List.mem_cons, not_or]
        exact ⟨fun he => hxc (by simp [he]), ih hx⟩

theorem lastIndexOfAux_spec {c : Char} {cs : List Char} {i : Nat}
    (h : lastIndexOfAux c cs = some i) :
    ∃ pre suf, cs = pre ++ c :: suf ∧ pre.length = i ∧ c ∉ suf := by
  induction cs generalizing i with
  | nil => exact absurd h (by simp [lastIndexOfAux])
  | cons x xs ih =>
    unfold lastIndexOfAux at h
    cases hx : lastIndexOfAux c xs with
    | some j =>
      rw [hx] at h
      obtain ⟨pre, suf, hcs, hlen, hns⟩ := ih hx
      have hi : i = j + 1 := by
        have := h; simp at this; omega
      exact ⟨x :: pre, suf, by simp [hcs], by simp [hlen, hi], hns⟩
    | none =>
      rw [hx] at h
      by_cases hxc : (x == c) = true
      · rw [if_pos hxc] at h
        have hi : i = 0 := by
          have := h; simp at this; omega
        have hxceq : x = c := by simpa using hxc
        exact ⟨[], xs, by simp [hxceq], by simp [hi], lastIndexOfAux_none hx⟩
      · rw [if_neg hxc] at h
        exact absurd h (by simp)

theorem matchesAt_extend {pat xs : List Char} (ys : List Char)
    (h : matchesAt pat xs = true) : matchesAt pat (xs ++ ys) = true := by
  induction pat generalizing xs with
  | nil => rfl
  | cons p ps ih =>
    cases xs with
    | nil => exact absurd h (by simp [matchesAt])
    | cons x xs' =>
      simp only [matchesAt, Bool.and_eq_true] at h
      simp only [List.cons_append, matchesAt, Bool.and_eq_true]
      exact ⟨h.1, ih h.2⟩

theorem occursIn_extend {pat xs : List Char} (ys : List Char)
    (h : occursIn pat xs = true) : occursIn pat (xs ++ ys) = true := by
  induction xs with
  | nil =>
    cases pat with
    | nil => exact occursIn_of_matchesAt rfl
    | cons p ps => exact absurd h (by simp [occursIn, matchesAt])
  | cons x xs' ih =>
    simp only [occursIn, Bool.or_eq_true] at h
    rcases h with h | h
    · simp only [List.cons_append, occursIn, Bool.or_eq_true]
      exact Or.inl (matchesAt_extend ys h)
    · simp only [List.cons_append, occursIn, Bool.or_eq_true]
      exact Or.inr (ih h)

/-- `parentSplit` facts for a nonempty absolute path `s`: writing
`s = pre ++ "/" ++ suf` with `suf` separator-free, the parent is `pre`;
it is strictly shorter, it is empty or absolute, it stays free of `//`, and
it equals `"/"` only when `s` itself starts with `//`. -/
theorem parentSplit_spec (s : String) (habs : s.data.head? = some '/') :
    (parentSplit s).length < s.length ∧
    ((parentSplit s) = "" ∨ (parentSplit s).data.head? = some '/') ∧
    (occursIn ['/', '/'] s.data = false →
      occursIn ['/', '/'] (parentSplit s).data = false ∧ parentSplit s ≠ "/") := by
  have hmem : ('/' : Char) ∈ s.data := by
    cases hd : s.data with
    | nil => rw [hd] at habs; exact absurd habs (by simp)
    | cons a as =>
      rw [hd] at habs
      have : a = '/' := by simpa using habs
      simp [hd, this]
  cases hfind : lastIndexOfAux '/' s.data with
  | none => exact absurd hmem (lastIndexOfAux_none hfind)
  | some i =>
    obtain ⟨pre, suf, hcs, hlen, hns⟩ := lastIndexOfAux_spec hfind
    have htake : s.data.take i = pre := by
      rw [hcs, ← hlen, List.take_left]
    have hps : parentSplit s = String.mk pre := by
      unfold parentSplit
      rw [hfind]
      exact congrArg (fun l => String.mk l) htake
    refine ⟨?_, ?_, ?_⟩
    · rw [hps]
      show pre.length < s.data.length
      rw [hcs]
      simp
    · rw [hps]
      cases hpre : pre with
      | nil => exact Or.inl rfl
      | cons a as =>
        right
        have : a = '/' := by
          rw [hcs, hpre] at habs
          simpa using habs
        simp [hpre, this]
    · intro hnod
      constructor
      · rw [hps]
        show occursIn ['/', '/'] pre = false
        by_contra hocc
        have hocc' : occursIn ['/', '/'] pre = true := by
          cases h : occursIn ['/', '/'] pre with
          | false => exact absurd h hocc
          | true => rfl
        have : occursIn ['/', '/'] s.data = true := by
          rw [hcs]
          rw [show pre ++ '/' :: suf = pre ++ ('/' :: suf) from rfl]
          exact occursIn_extend _ hocc'
        rw [this] at hnod; exact absurd hnod (by simp)
      · rw [hps]
        intro hroot
        have hpre : pre = ['/'] := congrArg String.data hroot
        have : occursIn ['/', '/'] s.data = true := by
          rw [hcs, hpre]
          exact occursIn_of_matchesAt (by simp [matchesAt])
        rw [this] at hnod; exact absurd hnod (by simp)

theorem findRepoRootLoop_eq_find (hasGit : String → Bool) (fuel : Nat) :
    ∀ s : String, (s = "" ∨ s.data.head? = some '/') → s.length < fuel →
      findRepoRootLoop hasGit fuel s =
        (match (walkChainLoop fuel s).find? hasGit with
         | some d => Except.ok d
         | none => Except.error "Cannot find git repo") := by
  induction fuel with
  | zero => intro s _ hlt; omega
  | succ f ih =>
    intro s habs hlt
    by_cases hs : s = ""
    · subst hs
      simp [findRepoRootLoop, walkChainLoop]
    · have habs' : s.data.head? = some '/' := habs.resolve_left hs
      obtain ⟨hshort, habs2, _⟩ := parentSplit_spec s habs'
      unfold findRepoRootLoop walkChainLoop
      rw [if_neg hs, if_neg hs]
      cases hg : hasGit s with
      | true =>
        rw [if_pos rfl, List.find?_cons_of_pos _ hg]
      | false =>
        rw [if_neg (by simp), List.find?_cons_of_neg _ (by simp [hg])]
        exact ih (parentSplit s)
          (habs2.imp_right id)
          (by omega)

theorem root_not_in_walkChainLoop (fuel : Nat) :
    ∀ s : String, s.data.head? = some '/' → occursIn ['/', '/'] s.data = false →
      s ≠ "/" → "/" ∉ walkChainLoop fuel s := by
  induction fuel with
  | zero => intro s _ _ _; simp [walkChainLoop]
  | succ f ih =>
    intro s habs hnod hroot
    have hs : s ≠ "" := by
      intro h; rw [h] at habs; exact absurd habs (by simp)
    unfold walkChainLoop
    rw [if_neg hs]
    obtain ⟨_, habs2, hnod2⟩ := parentSplit_spec s habs
    obtain ⟨hnodp, hnotroot⟩ := hnod2 hnod
    simp only [List.mem_cons, not_or]
    refine ⟨fun h => hroot h.symm, ?_⟩
    rcases habs2 with hpe | hpabs
    · rw [hpe]; cases f <;> simp [walkChainLoop]
    · exact ih (parentSplit s) hpabs hnodp hnotroot

/-- C6 (counterexample): the claim says the walk examines every ancestor "up
to and including the filesystem root".  With the `.git` marker present only
at the root `/`, the walk from `/a` raises `RepoRootNotFound`: after
examining `/a`, `rsplit(os.sep, 1)[0]` yields the empty string and the
`while curr_dir` loop exits without ever examining `/`. -/
theorem find_repo_root_skips_fs_root :
    findRepoRoot (fun p => p == "/") "/a" = Except.error "Cannot find git repo" ∧
    (fun p => p == "/") "/" = true := ⟨rfl, rfl⟩

/-- C6 (amended): for a normalized absolute start path, `find_repo_root`
returns the nearest directory along the examined chain — `start` itself,
then its iterated `rsplit`-parents, stopping when the parent-split yields
the empty string — that contains the `.git` marker, and raises
`RepoRootNotFound` when no examined directory does.  The chain begins at
`start`, but the filesystem root `/` is never examined unless `start` is
`/` itself: the walk stops one level short of the root. -/
theorem find_repo_root_walk (hasGit : String → Bool) (start : String)
    (habs : start.data.head? = some '/')
    (hnod : occursIn ['/', '/'] start.data = false) :
    findRepoRoot hasGit start =
      (match (walkChain start).find? hasGit with
       | some d => Except.ok d
       | none => Except.error "Cannot find git repo") ∧
    (walkChain start).head? = some start ∧
    (start ≠ "/" → "/" ∉ walkChain start) := by
  refine ⟨?_, ?_, ?_⟩
  · exact findRepoRootLoop_eq_find hasGit (start.length + 1) start (Or.inr habs) (by omega)
  · have hs : start ≠ "" := by
      intro h; rw [h] at habs; exact absurd habs (by simp)
    unfold walkChain walkChainLoop
    rw [if_neg hs]
    rfl
  · intro h
    exact root_not_in_walkChainLoop (start.length + 1) start habs hnod h

/-- C6 witness: the walk theorem at the spec's own test scenarios — marker
at `/rootdir/project` found from a sub-sub-package, no marker anywhere, and
a marker only below the start path — plus the never-examined root. -/
theorem find_repo_root_walk_witness :
    findRepoRoot (fun p => p == "/rootdir/project")
        "/rootdir/project/package/sub_package" = Except.ok "/rootdir/project" ∧
    findRepoRoot (fun _ => false) "/rootdir/project/package" =
      Except.error "Cannot find git repo" ∧
    findRepoRoot (fun p => p == "/rootdir/project/package/sub_package")
        "/rootdir/project" = Except.error "Cannot find git repo" ∧
    "/" ∉ walkChain "/a" := by
  have h1 := find_repo_root_walk (fun p => p == "/rootdir/project")
      "/rootdir/project/package/sub_package" (by decide) (by decide)
  have h2 := find_repo_root_walk (fun _ => false) "/rootdir/project/package"
      (by decide) (by decide)
  have h3 := find_repo_root_walk (fun p => p == "/rootdir/project/package/sub_package")
      "/rootdir/project" (by decide) (by decide)
  have h4 := find_repo_root_walk (fun p => p == "/") "/a" (by decide) (by decide)
  exact ⟨h1.1.trans rfl, h2.1.trans rfl, h3.1.trans rfl, h4.2.2 (by decide)⟩

/-! ## Memoization of `find_repo_root` (`@lru_cache(maxsize=1)`)

The cache holds at most one `(argument, result)` pair; a hit returns the
cached value without touching the filesystem; a miss runs the walk against
the current filesystem and stores the result only when the call returns
(Python's `lru_cache` does not cache raised exceptions). -/

def cachedFindRepoRoot (cache : Option (String × String)) (hasGit : String → Bool)
    (start : String) : Except String String × Option (String × String) :=
  match cache with
  | some (k, v) =>
    if k == start then (Except.ok v, some (k, v))
    else
      match findRepoRoot hasGit start with
      | Except.ok r => (Except.ok r, some (start, r))
      | Except.error e => (Except.error e, some (k, v))
  | none =>
    match findRepoRoot hasGit start with
    | Except.ok r => (Except.ok r, some (start, r))
    | Except.error e => (Except.error e, none)

/-- C7 (counterexample): the claim quantifies over every start path, but a
first call that raises `RepoRootNotFound` is not cached.  With no marker
anywhere, the first call on `/a/b` raises; a `.git` then created at `/a/b`
itself is seen by the second call with the same argument, which re-walks
and returns the new, closer root — its result does reflect the intervening
filesystem change. -/
theorem find_repo_root_memo_cex :
    (cachedFindRepoRoot none (fun _ => false) "/a/b").1 =
      Except.error "Cannot find git repo" ∧
    (cachedFindRepoRoot (cachedFindRepoRoot none (fun _ => false) "/a/b").2
        (fun p => p == "/a/b") "/a/b").1 = Except.ok "/a/b" := ⟨rfl, rfl⟩

/-- C7 (amended): when the first call returns successfully, a second call
with the same argument returns the same result from the cache without
re-walking the filesystem: the outcome is independent of the filesystem
state at the time of the second call (in particular, a newly created closer
`.git` marker is not reflected).  A first call that raises is not cached. -/
theorem find_repo_root_memo (hasGit1 hasGit2 : String → Bool) (start v : String)
    (h : (cachedFindRepoRoot none hasGit1 start).1 = Except.ok v) :
    (cachedFindRepoRoot (cachedFindRepoRoot none hasGit1 start).2 hasGit2 start).1 =
      Except.ok v := by
  cases hfr : findRepoRoot hasGit1 start with
  | ok r =>
    simp only [cachedFindRepoRoot, hfr] at h ⊢
    simpa using h
  | error e =>
    simp only [cachedFindRepoRoot, hfr] at h
    exact Except.noConfusion h

/-- C7 witness: first call with the marker at `/a`, second call after a
closer marker appears at `/a/b`; the cached result `/a` is returned. -/
theorem find_repo_root_memo_witness :
    (cachedFindRepoRoot (cachedFindRepoRoot none (fun p => p == "/a") "/a/b").2
        (fun p => p == "/a/b") "/a/b").1 = Except.ok "/a" :=
  find_repo_root_memo (fun p => p == "/a") (fun p => p == "/a/b") "/a/b" "/a" rfl

/-! ## Recursive removal (`fsutil.find_glob` + `fsutil.recursive_remove`)

`find_glob` changes the working directory to `root_dir`, evaluates
`glob(pattern, recursive=True)` — an eagerly built list over the initial
filesystem state — and yields the matches accepted by `filter_fn`;
`recursive_remove` calls `shutil.rmtree` on each yielded path while the
working directory is still `root_dir` (the generator's `finally` only runs
once iteration finishes), so every path is interpreted relative to the root
and nothing outside the root can be touched.  The filesystem under the root
is a finite list of entries (component paths relative to the root) with a
directory flag; the glob pattern is abstracted by the predicate `matchesGlob`
(which relative paths the pattern matches), and `filter_fn` is a pure
predicate on the yielded relative path, as in the repository's tests. -/

structure FS where
  entries : List (List String)
  dirOf : List String → Bool

/-- `p` is `e` itself or an ancestor of `e` (component-wise prefix). -/
def underPath : List String → List String → Bool
  | [], _ => true
  | _ :: _, [] => false
  | a :: as, b :: bs => a == b && underPath as bs

/-- `shutil.rmtree p`: raises (`FileNotFoundError` / `NotADirectoryError`)
unless `p` is an existing directory; on success removes `p` and everything
beneath it. -/
def rmtree (fs : FS) (p : List String) : Option FS :=
  if p ∈ fs.entries ∧ fs.dirOf p = true then
    some { entries := fs.entries.filter (fun e => !underPath p e), dirOf := fs.dirOf }
  else none

/-- `find_glob(root, pattern, filter_fn)`: the matches of the initial glob
that pass the filter, in glob order. -/
def findGlob (fs : FS) (matchesGlob filterFn : List String → Bool) : List (List String) :=
  fs.entries.filter (fun p => matchesGlob p && filterFn p)

/-- The `for path in find_glob(...): rmtree(path)` loop; `none` when some
`rmtree` raises (in the real run entries removed before the raise stay
removed; the claim speaks about completed runs). -/
def removeAll (fs : FS) : List (List String) → Option FS
  | [] => some fs
  | p :: ps =>
    match rmtree fs p with
    | some fs2 => removeAll fs2 ps
    | none => none

/-- `fsutil.recursive_remove`. -/
def recursiveRemove (fs : FS) (matchesGlob filterFn : List String → Bool) : Option FS :=
  removeAll fs (findGlob fs matchesGlob filterFn)

theorem removeAll_spec (ps : List (List String)) :
    ∀ fs fs', removeAll fs ps = some fs' →
      fs'.entries = fs.entries.filter (fun e => ps.all (fun p => !underPath p e)) ∧
      fs'.dirOf = fs.dirOf ∧
      ∀ p ∈ ps, p ∈ fs.entries ∧ fs.dirOf p = true := by
  induction ps with
  | nil =>
    intro fs fs' h
    have hfs : fs = fs' := by
      simpa [removeAll] using h
    subst hfs
    refine ⟨?_, rfl, by simp⟩
    rw [eq_comm]
    exact List.filter_eq_self.mpr (by simp)
  | cons p ps ih =>
    intro fs fs' h
    unfold removeAll at h
    cases hrm : rmtree fs p with
    | none => rw [hrm] at h; exact absurd h (by simp)
    | some fs2 =>
      rw [hrm] at h
      have hguard : (p ∈ fs.entries ∧ fs.dirOf p = true) ∧
          fs2 = { entries := fs.entries.filter (fun e => !underPath p e),
                  dirOf := fs.dirOf } := by
        unfold rmtree at hrm
        by_cases hc : p ∈ fs.entries ∧ fs.dirOf p = true
        · rw [if_pos hc] at hrm
          exact ⟨hc, (Option.some.inj hrm).symm⟩
        · rw [if_neg hc] at hrm
          exact absurd hrm (by simp)
      obtain ⟨he2, hd2, hg2⟩ := ih fs2 fs' h
      obtain ⟨hc, hfs2⟩ := hguard
      refine ⟨?_, ?_, ?_⟩
      · rw [he2, hfs2]
        show (fs.entries.filter fun e => !underPath p e).filter
            (fun e => ps.all fun q => !underPath q e) = _
        rw [List.filter_filter]
        refine List.filter_congr ?_
        intro a _
        simp only [List.all_cons]
        rw [Bool.and_comm]
      · rw [hd2, hfs2]
      · intro q hq
        rcases List.mem_cons.mp hq with hq | hq
        · subst hq; exact hc
        · have := hg2 q hq
          rw [hfs2] at this
          refine ⟨(List.mem_filter.mp this.1).1, this.2⟩

/-- C8: after a `recursive_remove(root, pattern, filter)` call that
completes, an entry of the initial filesystem (all paths relative to the
chosen root: the traversal operates inside it, so entries outside the root
are structurally untouched) has been deleted if and only if it is, or lies
beneath, a path satisfying all the removal conditions: that path exists under
the root, is a directory, passes the filter, and matches the glob pattern;
every entry not covered by such a path remains. -/
theorem recursive_remove_frame (fs fs' : FS) (matchesGlob filterFn : List String → Bool)
    (hrun : recursiveRemove fs matchesGlob filterFn = some fs')
    (e : List String) (he : e ∈ fs.entries) :
    (e ∉ fs'.entries ↔
      ∃ p, p ∈ fs.entries ∧ fs.dirOf p = true ∧ matchesGlob p = true ∧
        filterFn p = true ∧ underPath p e = true) := by
  obtain ⟨hent, _, hguard⟩ := removeAll_spec (findGlob fs matchesGlob filterFn) fs fs' hrun
  rw [hent]
  constructor
  · intro hne
    have hnall : ¬ ((findGlob fs matchesGlob filterFn).all (fun p => !underPath p e) = true) := by
      intro hall
      exact hne (List.mem_filter.mpr ⟨he, hall⟩)
    rw [List.all_eq_true] at hnall
    push_neg at hnall
    obtain ⟨p, hp, hnp⟩ := hnall
    have hup : underPath p e = true := by
      cases h : underPath p e with
      | true => rfl
      | false => exact absurd (by simp [h]) hnp
    have hpmem := List.mem_filter.mp hp
    have hmf : matchesGlob p = true ∧ filterFn p = true := by
      have h2 := hpmem.2; simp at h2; exact h2
    exact ⟨p, hpmem.1, (hguard p hp).2, hmf.1, hmf.2, hup⟩
  · rintro ⟨p, hpe, hpd, hpm, hpf, hup⟩
    intro hmem
    have hall := (List.mem_filter.mp hmem).2
    rw [List.all_eq_true] at hall
    have hp_in : p ∈ findGlob fs matchesGlob filterFn :=
      List.mem_filter.mpr ⟨hpe, by simp [hpm, hpf]⟩
    have := hall p hp_in
    simp [hup] at this

/-- A concrete tree mirroring the repository's `test_recursive_remove`:
`package/__dir1__` matches the glob and passes the filter, `__dir22__` is
excluded by the glob, `keep` is excluded by the filter. -/
def demoFS : FS :=
  { entries := [["package"], ["package", "__dir1__"], ["__dir22__"], ["keep"]],
    dirOf := fun _ => true }

def demoMatches : List String → Bool :=
  fun p => p == ["package", "__dir1__"] || p == ["keep"]

def demoFilter : List String → Bool :=
  fun p => !(p == ["keep"])

def demoAfter : FS :=
  { entries := [["package"], ["__dir22__"], ["keep"]], dirOf := fun _ => true }

/-- C8 witness: the frame theorem on the concrete tree — the matching,
filter-passing directory is gone; the glob-excluded and filter-excluded
entries remain. -/
theorem recursive_remove_frame_witness :
    ((["package", "__dir1__"] : List String) ∉ demoAfter.entries) ∧
    ((["__dir22__"] : List String) ∈ demoAfter.entries) ∧
    ((["keep"] : List String) ∈ demoAfter.entries) := by
  have h1 := recursive_remove_frame demoFS demoAfter demoMatches demoFilter rfl
      ["package", "__dir1__"] (by decide)
  exact ⟨h1.mpr ⟨["package", "__dir1__"], by decide, rfl, rfl, by decide, by decide⟩,
    by decide, by decide⟩

/-! ## The gecko install plan and the version marker
(`GeckoDownloader.go`, `GeckoDownloader._save_version_file`)

`go` resolves the version when it is the sentinel `'latest'` (rewriting
`self.version` in place), fetches
`posix_join(main_url, 'download', f'v{version}', basename)` into
`pjoin(self.directory, basename)`, asserts the file exists, unpacks it,
removes the archive, and finally writes the marker:
`print('geckodriver ', self.version, sep='', file=fd)` into
`open(pjoin(dirname(fullpath), 'version'), 'w')` — mode `'w'` truncates,
so each successful install overwrites the previous marker. -/

inductive GoStep where
  | httpGet (url : String) (dest : String)
  | assertIsFile (path : String)
  | unpackArchive (path : String)
  | removeFile (path : String)
  | writeFile (path : String) (content : String)
  deriving DecidableEq

def GoStep.isWrite : GoStep → Bool
  | GoStep.writeFile _ _ => true
  | _ => false

/-- The version `go` uses after its `'latest'`-resolution branch. -/
def resolvedVersion (version latest : String) : String :=
  if version == "latest" then latest else version

/-- The steps of a successful `GeckoDownloader.go` run, in order, for a
configured directory and version, the resolution result for `'latest'`, and
the platform suffix from the gecko table. -/
def geckoGoPlan (directory version latest suffix : String) : List GoStep :=
  let v := resolvedVersion version latest
  let base := "geckodriver-v" ++ v ++ "-" ++ suffix
  let fullpath := posixJoin directory base
  let url := posixJoin (posixJoin (posixJoin geckoMainUrl "download") ("v" ++ v)) base
  [GoStep.httpGet url fullpath,
   GoStep.assertIsFile fullpath,
   GoStep.unpackArchive fullpath,
   GoStep.removeFile fullpath,
   GoStep.writeFile (posixJoin (dirnameP fullpath) "version")
     ("geckodriver " ++ v ++ "\n")]

/-- Applying an `open(path, 'w')` write to a file map: the content replaces
whatever was there. -/
def applyWrite (files : String → Option String) (path content : String) :
    String → Option String :=
  fun q => if q == path then some content else files q

theorem lastIndexOfAux_eq_none {c : Char} {cs : List Char} (h : c ∉ cs) :
    lastIndexOfAux c cs = none := by
  induction cs with
  | nil => rfl
  | cons x xs ih =>
    unfold lastIndexOfAux
    rw [ih (fun hx => h (List.mem_cons_of_mem x hx))]
    have : (x == c) = false := by
      have : x ≠ c := fun he => h (he ▸ List.mem_cons_self x xs)
      simp [this]
    rw [this]
    rfl

theorem lastIndexOfAux_append_last (c : Char) (xs ys : List Char)
    (h : c ∉ ys) : lastIndexOfAux c (xs ++ c :: ys) = some xs.length := by
  induction xs with
  | nil =>
    show lastIndexOfAux c (c :: ys) = some 0
    unfold lastIndexOfAux
    rw [lastIndexOfAux_eq_none h]
    simp
  | cons x xs ih =>
    show lastIndexOfAux c (x :: (xs ++ c :: ys)) = some (xs.length + 1)
    unfold lastIndexOfAux
    rw [ih]

theorem take_len_succ_append (xs : List Char) (y : Char) (ys : List Char) :
    (xs ++ y :: ys).take (xs.length + 1) = xs ++ [y] := by
  induction xs with
  | nil => simp
  | cons a as ih => simpa using ih

/-- `posixpath.dirname(posixpath.join(d, b)) = d` for a nonempty `d`
without a trailing separator and a separator-free component `b`. -/
theorem dirnameP_posixJoin (d b : String) (hd : d ≠ "")
    (hdl : d.data.getLast? ≠ some '/') (hb : ('/' : Char) ∉ b.data) :
    dirnameP (posixJoin d b) = d := by
  have hdne : d.data ≠ [] := by
    intro h
    apply hd
    cases d with
    | mk data =>
      simp only at h
      rw [h]
  obtain ⟨g, rest, hrev⟩ : ∃ g rest, d.data.reverse = g :: rest := by
    cases hr : d.data.reverse with
    | nil => exact absurd (List.reverse_eq_nil_iff.mp hr) hdne
    | cons g rest => exact ⟨g, rest, rfl⟩
  have hglast : d.data.getLast? = some g := by
    rw [← List.head?_reverse, hrev]
    rfl
  have hgne : g ≠ '/' := fun h => hdl (h ▸ hglast)
  have hjoin : posixJoin d b = d ++ "/" ++ b := by
    unfold posixJoin
    have h1 : (b.data.head? == some '/') = false := by
      cases hbd : b.data with
      | nil => rfl
      | cons x xs =>
        have hx : x ≠ '/' := by
          intro h
          exact hb (h ▸ (hbd ▸ List.mem_cons_self x xs))
        simp [hx]
    have h2 : (d == "") = false := by simp [hd]
    have h3 : (d.data.getLast? == some '/') = false := by
      simp [hglast, hgne]
    rw [h1, h2, h3]
    simp
  rw [hjoin]
  have hdata : (d ++ "/" ++ b).data = d.data ++ '/' :: b.data := by simp
  unfold dirnameP
  rw [hdata, lastIndexOfAux_append_last '/' d.data b.data hb]
  dsimp only
  rw [take_len_succ_append]
  have hall : ((d.data ++ ['/']).all fun ch => ch == '/') = false := by
    cases hal : ((d.data ++ ['/']).all fun ch => ch == '/') with
    | false => rfl
    | true =>
      have hg2 := List.all_eq_true.mp hal g
        (List.mem_append_left _ (List.mem_reverse.mp (hrev ▸ List.mem_cons_self g rest)))
      exact absurd (by simpa using hg2) hgne
  rw [if_neg (by simp [hall])]
  have hrev2 : (d.data ++ ['/']).reverse = '/' :: g :: rest := by
    rw [List.reverse_append, hrev]
    rfl
  rw [hrev2]
  have hdrop : List.dropWhile (fun ch => ch == '/') ('/' :: g :: rest) = g :: rest := by
    rw [List.dropWhile_cons]
    simp only [beq_self_eq_true, if_true]
    rw [List.dropWhile_cons]
    simp [hgne]
  rw [hdrop, show (g :: rest) = d.data.reverse from hrev.symm, List.reverse_reverse]

/-- C9: a successful gecko install performs exactly one file write, as its
last step: the marker file `version` inside the target directory, whose
content is the single line `"geckodriver <version>"` — the driver family
name, a space, the resolved version, and the newline appended by `print`.
Written via `open(..., 'w')`, a later successful install replaces the
previous marker's content rather than appending to it (last conjunct). -/
theorem gecko_version_marker (directory version latest suffix : String)
    (hd : directory ≠ "") (hdl : directory.data.getLast? ≠ some '/')
    (hsuf : ('/' : Char) ∉ suffix.data)
    (hver : ('/' : Char) ∉ (resolvedVersion version latest).data) :
    (geckoGoPlan directory version latest suffix).getLast? =
      some (GoStep.writeFile (posixJoin directory "version")
        ("geckodriver " ++ resolvedVersion version latest ++ "\n")) ∧
    (geckoGoPlan directory version latest suffix).filter GoStep.isWrite =
      [GoStep.writeFile (posixJoin directory "version")
        ("geckodriver " ++ resolvedVersion version latest ++ "\n")] ∧
    (∀ files old c2, applyWrite (applyWrite files (posixJoin directory "version") old)
        (posixJoin directory "version") c2 (posixJoin directory "version") = some c2) := by
  have hbase : ('/' : Char) ∉
      ("geckodriver-v" ++ resolvedVersion version latest ++ "-" ++ suffix).data := by
    intro hmem
    have : ("geckodriver-v" ++ resolvedVersion version latest ++ "-" ++ suffix).data =
        "geckodriver-v".data ++ (resolvedVersion version latest).data ++
        "-".data ++ suffix.data := by simp
    rw [this] at hmem
    rcases List.mem_append.mp hmem with hmem | hmem
    · rcases List.mem_append.mp hmem with hmem | hmem
      · rcases List.mem_append.mp hmem with hmem | hmem
        · exact absurd hmem (by decide)
        · exact hver hmem
      · exact absurd hmem (by decide)
    · exact hsuf hmem
  have hdir := dirnameP_posixJoin directory
    ("geckodriver-v" ++ resolvedVersion version latest ++ "-" ++ suffix) hd hdl hbase
  refine ⟨?_, ?_, ?_⟩
  · unfold geckoGoPlan
    dsimp only
    rw [hdir]
    rfl
  · unfold geckoGoPlan
    dsimp only
    rw [hdir]
    rfl
  · intro files old c2
    simp [applyWrite]

/-- C9 witness: the marker theorem at `/tmp`, configured version `latest`
resolved to `0.29.0`, Linux suffix; the marker content is literally
`"geckodriver 0.29.0\n"` at `/tmp/version`. -/
theorem gecko_version_marker_witness :
    (geckoGoPlan "/tmp" "latest" "0.29.0" "linux64.tar.gz").getLast? =
      some (GoStep.writeFile (posixJoin "/tmp" "version")
        ("geckodriver " ++ resolvedVersion "latest" "0.29.0" ++ "\n")) ∧
    ("geckodriver " ++ resolvedVersion "latest" "0.29.0" ++ "\n") =
      "geckodriver 0.29.0\n" ∧
    posixJoin "/tmp" "version" = "/tmp/version" ∧
    applyWrite (applyWrite (fun _ => none) (posixJoin "/tmp" "version") "geckodriver 0.28.0\n")
      (posixJoin "/tmp" "version") "geckodriver 0.29.0\n" (posixJoin "/tmp" "version") =
      some "geckodriver 0.29.0\n" := by
  have h := gecko_version_marker "/tmp" "latest" "0.29.0" "linux64.tar.gz"
    (by decide) (by decide) (by decide) (by decide)
  exact ⟨h.1, by decide, by decide,
    h.2.2 (fun _ => none) "geckodriver 0.28.0\n" "geckodriver 0.29.0\n"⟩

/-! ## `DriverDownloader.configure`

`configure(**kwargs)` first runs `_check_attributes`, which raises
`TypeError` when the passed names are not a subset of the class's
`attrnames` (`{'directory', 'version'}` in both concrete downloaders), and
only then runs the `setattr` loop.  The instance's mutable state is the
declared attribute pair; `configure` returns the state after the call
together with the raised error, if any — on error the state is the
original, untouched one, since the check precedes every assignment. -/

structure DownloaderState where
  directory : String
  version : String
  deriving DecidableEq

def attrnames : List String := ["directory", "version"]

/-- `_check_attributes`: `passed_names <= self.attrnames`. -/
def checkAttributes (kwargs : List (String × String)) : Bool :=
  kwargs.all (fun kv => attrnames.contains kv.1)

/-- `setattr(self, name, value)` over the declared attributes. -/
def setAttr (s : DownloaderState) (name value : String) : DownloaderState :=
  if name == "directory" then { s with directory := value }
  else if name == "version" then { s with version := value }
  else s

def configure (s : DownloaderState) (kwargs : List (String × String)) :
    DownloaderState × Option String :=
  if checkAttributes kwargs then
    (kwargs.foldl (fun st kv => setAttr st kv.1 kv.2) s, none)
  else (s, some "TypeError: unknown arguments")

/-- Value bound to `name` by the last occurrence in `kwargs`, if any
(keyword arguments cannot repeat in Python, but the fold is characterised in
full generality). -/
def lastVal (name : String) : List (String × String) → Option String
  | [] => none
  | (n, v) :: rest =>
    match lastVal name rest with
    | some w => some w
    | none => if n == name then some v else none

theorem foldl_setAttr (kwargs : List (String × String)) :
    ∀ s : DownloaderState,
      (kwargs.foldl (fun st kv => setAttr st kv.1 kv.2) s).directory =
        (lastVal "directory" kwargs).getD s.directory ∧
      (kwargs.foldl (fun st kv => setAttr st kv.1 kv.2) s).version =
        (lastVal "version" kwargs).getD s.version := by
  induction kwargs with
  | nil => intro s; exact ⟨rfl, rfl⟩
  | cons kv rest ih =>
    intro s
    rcases kv with ⟨n, v⟩
    have hstep : ((n, v) :: rest).foldl (fun st kv => setAttr st kv.1 kv.2) s =
        rest.foldl (fun st kv => setAttr st kv.1 kv.2) (setAttr s n v) := rfl
    have hconsd : lastVal "directory" ((n, v) :: rest) =
        (match lastVal "directory" rest with
         | some w => some w
         | none => if n == "directory" then some v else none) := rfl
    have hconsv : lastVal "version" ((n, v) :: rest) =
        (match lastVal "version" rest with
         | some w => some w
         | none => if n == "version" then some v else none) := rfl
    constructor
    · rw [hstep, (ih (setAttr s n v)).1, hconsd]
      cases hl : lastVal "directory" rest with
      | some w => simp
      | none =>
        by_cases hn : (n == "directory") = true
        · have hnd : n = "directory" := by simpa using hn
          simp [hn, setAttr, hnd]
        · by_cases hnv : (n == "version") = true
          · have hnv' : n = "version" := by simpa using hnv
            simp [hn, setAttr, hnv']
          · simp [hn, hnv, setAttr]
    · rw [hstep, (ih (setAttr s n v)).2, hconsv]
      cases hl : lastVal "version" rest with
      | some w => simp
      | none =>
        by_cases hn : (n == "version") = true
        · have hnd : n = "version" := by simpa using hn
          simp [hn, setAttr, hnd]
        · by_cases hnv : (n == "directory") = true
          · have hnv' : n = "directory" := by simpa using hnv
            simp [hn, hnv, setAttr, hnv']
          · simp [hn, hnv, setAttr]

/-- C10: if the keyword mapping holds any name outside the declared
attribute set `{directory, version}`, `configure` raises `TypeError` and no
attribute of the instance changes (the name check precedes every
assignment); if all names are declared, no error is raised and exactly the
passed attributes take their given values, each unmentioned attribute
keeping its prior value. -/
theorem configure_spec (s : DownloaderState) (kwargs : List (String × String)) :
    ((∃ kv ∈ kwargs, kv.1 ∉ attrnames) →
      (configure s kwargs).2.isSome = true ∧ (configure s kwargs).1 = s) ∧
    ((∀ kv ∈ kwargs, kv.1 ∈ attrnames) →
      (configure s kwargs).2 = none ∧
      (configure s kwargs).1.directory = (lastVal "directory" kwargs).getD s.directory ∧
      (configure s kwargs).1.version = (lastVal "version" kwargs).getD s.version) := by
  constructor
  · rintro ⟨kv, hkv, hname⟩
    have hc : checkAttributes kwargs = false := by
      cases h : checkAttributes kwargs with
      | false => rfl
      | true =>
        have hm := List.all_eq_true.mp h kv hkv
        exact absurd (by simpa using hm) hname
    unfold configure
    rw [hc]
    exact ⟨rfl, rfl⟩
  · intro hall
    have hc : checkAttributes kwargs = true := by
      rw [checkAttributes, List.all_eq_true]
      intro kv hkv
      simpa using hall kv hkv
    unfold configure
    rw [hc]
    exact ⟨rfl, (foldl_setAttr kwargs s).1, (foldl_setAttr kwargs s).2⟩

/-- C10 witness: a mapping containing the unknown name `bogus` raises and
leaves the state untouched; a mapping setting only `version` updates it and
keeps `directory`. -/
theorem configure_spec_witness :
    ((configure ⟨"/tmp", "latest"⟩ [("directory", "/x"), ("bogus", "1")]).2.isSome = true ∧
      (configure ⟨"/tmp", "latest"⟩ [("directory", "/x"), ("bogus", "1")]).1 =
        ⟨"/tmp", "latest"⟩) ∧
    ((configure ⟨"/tmp", "latest"⟩ [("version", "0.29.0")]).2 = none ∧
      (configure ⟨"/tmp", "latest"⟩ [("version", "0.29.0")]).1.directory =
        (lastVal "directory" [("version", "0.29.0")]).getD "/tmp" ∧
      (configure ⟨"/tmp", "latest"⟩ [("version", "0.29.0")]).1.version =
        (lastVal "version" [("version", "0.29.0")]).getD "latest") := by
  refine ⟨(configure_spec ⟨"/tmp", "latest"⟩ _).1 ⟨("bogus", "1"), by decide, by decide⟩,
          (configure_spec ⟨"/tmp", "latest"⟩ _).2 (by decide)⟩

end Dodolib
